import Mathlib

/-!
# StingChat: stream completion scanner and moderation category parser

A shallow embedding of the two routines of the StingChat repository that its
specification singles out:

* the stream scan loops in `QuizForm.handleSubmit`, `LessonPlanForm.handleSubmit`
  and `AgentQuizForm.handleSubmit`, which read a streamed HTTP response chunk by
  chunk, split each decoded chunk on newlines, parse `"data: "`-prefixed lines as
  JSON, record the first conversation identifier and watch for a terminal event;

* `parseOllamaResponse` and the category normalisation / flag computation inside
  `moderateMessage` in the server controller.

Strings are modelled as `List Char` (Lean's scalar values stand for JavaScript
characters; surrogate pairs in `\u` escapes are combined, and a lone surrogate,
which Lean's `Char` cannot carry, is replaced by U+FFFD).  JavaScript's
`JSON.parse` is modelled by an executable recursive-descent parser over the JSON
grammar, structural on a fuel counter that the top entry point seeds with the
input length plus one; `toLowerCase` and `trim` are modelled on their ASCII
behaviour.  Byte-level UTF-8 decoding of chunks is modelled at character
granularity.
-/

namespace StingChat

/-! ## Character and list utilities -/

/-- Whitespace recognised by JavaScript's `String.prototype.trim` (ASCII part,
plus NBSP and the BOM), by code point: space, tab, newline, carriage return,
vertical tab, form feed, U+00A0, U+FEFF. -/
def jsWs (c : Char) : Bool :=
  c.toNat = 32 || c.toNat = 9 || c.toNat = 10 || c.toNat = 13 ||
  c.toNat = 11 || c.toNat = 12 || c.toNat = 160 || c.toNat = 65279

/-- Whitespace admitted between tokens by the JSON grammar (RFC 8259): space,
tab, newline, carriage return. -/
def jsonWs (c : Char) : Bool :=
  c.toNat = 32 || c.toNat = 9 || c.toNat = 10 || c.toNat = 13

/-- Drop leading JSON whitespace. -/
def skipWs : List Char → List Char
  | c :: cs => if jsonWs c then skipWs cs else c :: cs
  | [] => []

/-- `String.prototype.trim`: drop `jsWs` from both ends. -/
def trimJs (l : List Char) : List Char :=
  ((l.dropWhile jsWs).reverse.dropWhile jsWs).reverse

/-- ASCII `String.prototype.toLowerCase`. -/
def lowerStr (l : List Char) : List Char :=
  l.map Char.toLower

/-- `String.prototype.split('\n')`: split on newline characters, keeping empty
pieces, so that the empty string yields `[[]]`. -/
def splitNl : List Char → List (List Char)
  | [] => [[]]
  | c :: cs =>
    if c = '\n' then [] :: splitNl cs
    else
      match splitNl cs with
      | r :: rs => (c :: r) :: rs
      | [] => [[c]]

/-- `String.prototype.includes`: substring containment. -/
def containsSub : List Char → List Char → Bool
  | hay, needle =>
    if needle.isPrefixOf hay then true
    else
      match hay with
      | [] => false
      | _ :: t => containsSub t needle

/-- Decimal digits to a natural number (JavaScript `ToNumber` on a digit string). -/
def digitsToNat (ds : List Char) : Nat :=
  ds.foldl (fun a c => 10 * a + (c.toNat - 48)) 0

/-! ## JSON values -/

/-- A JSON value as produced by `JSON.parse`.  Numbers are kept exactly as
mantissa × 10^exponent; object members are kept in textual order and a duplicate
key is resolved by `jsGet` taking the last binding, as `JSON.parse` does. -/
inductive Json where
  | null : Json
  | bool : Bool → Json
  | num : Int → Int → Json
  | str : List Char → Json
  | arr : List Json → Json
  | obj : List (List Char × Json) → Json

/-- JavaScript truthiness of a JSON value (`undefined` is represented as
`Option.none` by callers, never as a `Json`). -/
def truthy : Json → Bool
  | .null => false
  | .bool b => b
  | .num m _ => m ≠ 0
  | .str s => s ≠ []
  | .arr _ => true
  | .obj _ => true

/-- Property access `j[k]`: defined on objects, `undefined` (`none`) elsewhere;
with a duplicate key the last binding wins, matching `JSON.parse`. -/
def jsGet (j : Json) (k : List Char) : Option Json :=
  match j with
  | .obj fields => fields.foldl (fun acc f => if f.1 = k then some f.2 else acc) none
  | _ => none

/-! ## `JSON.parse`

A recursive-descent parser for the RFC 8259 grammar, as `JSON.parse` accepts it:
strict about number syntax, escape sequences and raw control characters in
strings, and rejecting trailing non-whitespace.  String and number lexing is
structural on the input; only array/object recursion is metered by fuel, which
`jsonParse` seeds generously with the input length plus one. -/

def hexVal (c : Char) : Option Nat :=
  if 48 ≤ c.toNat ∧ c.toNat ≤ 57 then some (c.toNat - 48)
  else if 97 ≤ c.toNat ∧ c.toNat ≤ 102 then some (c.toNat - 87)
  else if 65 ≤ c.toNat ∧ c.toNat ≤ 70 then some (c.toNat - 55)
  else none

def hex4 (a b c d : Char) : Option Nat :=
  match hexVal a, hexVal b, hexVal c, hexVal d with
  | some va, some vb, some vc, some vd => some (((va * 16 + vb) * 16 + vc) * 16 + vd)
  | _, _, _, _ => none

/-- Turn a code point into a `Char`; an invalid scalar (a lone surrogate left by
a JavaScript string) becomes U+FFFD, the model's stand-in for a code unit Lean
cannot represent. -/
def codePointChar (n : Nat) : Char :=
  if n.isValidChar then Char.ofNat n else '�'

def highSurrogate (n : Nat) : Bool := 0xd800 ≤ n && n ≤ 0xdbff
def lowSurrogate (n : Nat) : Bool := 0xdc00 ≤ n && n ≤ 0xdfff

/-- Handle the character after a backslash inside a JSON string literal; the
escape sequences of RFC 8259, everything else a parse error.  The first
argument is the continuation lexing the rest of the string body. -/
def parseEscape (pu : List Char → Option (List Nat × List Char)) :
    List Char → Option (List Nat × List Char)
  | '"' :: r => (pu r).map (fun p => ('"'.toNat :: p.1, p.2))
  | '\\' :: r => (pu r).map (fun p => ('\\'.toNat :: p.1, p.2))
  | '/' :: r => (pu r).map (fun p => ('/'.toNat :: p.1, p.2))
  | 'b' :: r => (pu r).map (fun p => (0x08 :: p.1, p.2))
  | 'f' :: r => (pu r).map (fun p => (0x0c :: p.1, p.2))
  | 'n' :: r => (pu r).map (fun p => ('\n'.toNat :: p.1, p.2))
  | 'r' :: r => (pu r).map (fun p => ('\r'.toNat :: p.1, p.2))
  | 't' :: r => (pu r).map (fun p => ('\t'.toNat :: p.1, p.2))
  | 'u' :: a :: b :: c2 :: d :: r =>
    match hex4 a b c2 d with
    | none => none
    | some n => (pu r).map (fun p => (n :: p.1, p.2))
  | _ => none

/-- Lex the body of a JSON string after the opening quote into UTF-16 code
units (a raw astral character contributes its scalar directly), returning the
units and the remainder after the closing quote.  Raw control characters are
rejected, as `JSON.parse` rejects them. -/
def parseStrUnits : Nat → List Char → Option (List Nat × List Char)
  | 0, _ => none
  | _ + 1, [] => none
  | fuel + 1, c :: rest =>
    if c = '"' then some ([], rest)
    else if c = '\\' then parseEscape (parseStrUnits fuel) rest
    else if c.toNat < 0x20 then none
    else (parseStrUnits fuel rest).map (fun p => (c.toNat :: p.1, p.2))

/-- Recombine UTF-16 code units into characters: a high surrogate followed by a
low surrogate forms one scalar; a lone surrogate, which Lean's `Char` cannot
carry, becomes U+FFFD.  The first argument is a pending high surrogate still
waiting for its mate. -/
def unitsToCharsAux : Option Nat → List Nat → List Char
  | none, [] => []
  | some _, [] => ['�']
  | none, u :: rest =>
    if highSurrogate u then unitsToCharsAux (some u) rest
    else codePointChar u :: unitsToCharsAux none rest
  | some hu, u :: rest =>
    if lowSurrogate u then
      codePointChar (0x10000 + (hu - 0xd800) * 0x400 + (u - 0xdc00)) :: unitsToCharsAux none rest
    else if highSurrogate u then '�' :: unitsToCharsAux (some u) rest
    else '�' :: codePointChar u :: unitsToCharsAux none rest

def unitsToChars (us : List Nat) : List Char :=
  unitsToCharsAux none us

/-- Parse the body of a JSON string after the opening quote, returning the
decoded characters and the remainder after the closing quote.  Every lexing
step consumes at least one character, so the input length plus one is always
enough fuel. -/
def parseStrBody (cs : List Char) : Option (List Char × List Char) :=
  (parseStrUnits (cs.length + 1) cs).map (fun p => (unitsToChars p.1, p.2))

/-- Take a maximal run of decimal digits. -/
def takeDigits : List Char → List Char × List Char
  | c :: cs =>
    if c.isDigit then
      let p := takeDigits cs
      (c :: p.1, p.2)
    else ([], c :: cs)
  | [] => ([], [])

/-- Parse a JSON number (sign, integer part, optional fraction, optional
exponent) into mantissa × 10^exponent.  The integer part may not have a leading
zero followed by more digits; a fraction or exponent must have at least one
digit — as in the RFC 8259 grammar. -/
def parseNum (cs : List Char) : Option (Json × List Char) :=
  let signed : Bool × List Char :=
    match cs with
    | '-' :: r => (true, r)
    | _ => (false, cs)
  let intPart := takeDigits signed.2
  match intPart.1 with
  | [] => none
  | d0 :: drest =>
    if d0 = '0' ∧ drest ≠ [] then none
    else
      let fracPart : Option (List Char × List Char) :=
        match intPart.2 with
        | '.' :: r =>
          let p := takeDigits r
          if p.1 = [] then none else some p
        | _ => some ([], intPart.2)
      match fracPart with
      | none => none
      | some fp =>
        let expPart : Option (Int × List Char) :=
          match fp.2 with
          | 'e' :: r | 'E' :: r =>
            let esigned : Bool × List Char :=
              match r with
              | '+' :: r2 => (false, r2)
              | '-' :: r2 => (true, r2)
              | _ => (false, r)
            let eds := takeDigits esigned.2
            if eds.1 = [] then none
            else some ((if esigned.1 then -(digitsToNat eds.1 : Int) else (digitsToNat eds.1 : Int)), eds.2)
          | r => some (0, r)
        match expPart with
        | none => none
        | some (e, rest) =>
          let mAbs : Nat := digitsToNat (intPart.1 ++ fp.1)
          let m : Int := if signed.1 then -(mAbs : Int) else (mAbs : Int)
          some (.num m (e - (fp.1.length : Int)), rest)

mutual

/-- Parse one JSON value, leading whitespace allowed. -/
def parseVal : Nat → List Char → Option (Json × List Char)
  | 0, _ => none
  | fuel + 1, cs =>
    match skipWs cs with
    | 'n' :: 'u' :: 'l' :: 'l' :: r => some (.null, r)
    | 't' :: 'r' :: 'u' :: 'e' :: r => some (.bool true, r)
    | 'f' :: 'a' :: 'l' :: 's' :: 'e' :: r => some (.bool false, r)
    | '"' :: r => (parseStrBody r).map (fun p => (.str p.1, p.2))
    | '[' :: r =>
      match skipWs r with
      | ']' :: r2 => some (.arr [], r2)
      | r2 => (parseItems fuel r2).map (fun p => (Json.arr p.1, p.2))
    | '\x7b' :: r =>
      match skipWs r with
      | '\x7d' :: r2 => some (.obj [], r2)
      | r2 => (parseMembers fuel r2).map (fun p => (Json.obj p.1, p.2))
    | c :: r =>
      if c = '-' || c.isDigit then parseNum (c :: r) else none
    | [] => none

/-- Parse the elements of a non-empty array, up to and including `']'`. -/
def parseItems : Nat → List Char → Option (List Json × List Char)
  | 0, _ => none
  | fuel + 1, cs =>
    match parseVal fuel cs with
    | none => none
    | some (v, r) =>
      match skipWs r with
      | ',' :: r2 => (parseItems fuel r2).map (fun p => (v :: p.1, p.2))
      | ']' :: r2 => some ([v], r2)
      | _ => none

/-- Parse the members of a non-empty object, up to and including `'}'`. -/
def parseMembers : Nat → List Char → Option (List (List Char × Json) × List Char)
  | 0, _ => none
  | fuel + 1, cs =>
    match skipWs cs with
    | '"' :: r =>
      match parseStrBody r with
      | none => none
      | some (k, r2) =>
        match skipWs r2 with
        | ':' :: r3 =>
          match parseVal fuel r3 with
          | none => none
          | some (v, r4) =>
            match skipWs r4 with
            | ',' :: r5 => (parseMembers fuel r5).map (fun p => ((k, v) :: p.1, p.2))
            | '\x7d' :: r5 => some ([(k, v)], r5)
            | _ => none
        | _ => none
    | _ => none

end

/-- `JSON.parse`: parse one value and reject trailing non-whitespace. -/
def jsonParse (cs : List Char) : Option Json :=
  match parseVal (cs.length + 1) cs with
  | some (v, rest) => if skipWs rest = [] then some v else none
  | none => none

/-! ## The stream completion scanners

Each form's `handleSubmit` contains its own copy of the read loop:

```
let conversationId: string | null = null;
let isComplete = false;
while (!isComplete) {
  const { done, value } = await reader.read();
  if (done) { isComplete = true; break; }
  const chunk = new TextDecoder().decode(value);
  const lines = chunk.split('\n');
  for (const line of lines) {
    if (line.startsWith('data: ')) {
      try {
        const parsed = JSON.parse(line.substring(6));
        if (GUARD) { conversationId = parsed.message.conversationId; }
        if (parsed.final === true || parsed.done === true) { isComplete = true; }
      } catch (e) { continue; }
    }
  }
}
```

where `GUARD` is `!conversationId && parsed.message?.conversationId` in
`QuizForm` and `conversationId === null && parsed.message?.conversationId
!== undefined` in `LessonPlanForm` and `AgentQuizForm`.  The loop is modelled
as a fold over the chunk list: the stream's chunks in arrival order, each
decoded to text. -/

def dataTag : List Char := "data: ".data
def msgKey : List Char := "message".data
def cidKey : List Char := "conversationId".data
def finalKey : List Char := "final".data
def doneKey : List Char := "done".data

/-- `parsed.message?.conversationId`: `none` models `undefined`, reached when
`message` is absent, not an object, or lacks the key. -/
def cidOf (p : Json) : Option Json :=
  match jsGet p msgKey with
  | some m => jsGet m cidKey
  | none => none

/-- `parsed.final === true || parsed.done === true`. -/
def isTerminalJson (p : Json) : Bool :=
  (match jsGet p finalKey with
   | some (.bool true) => true
   | _ => false) ||
  (match jsGet p doneKey with
   | some (.bool true) => true
   | _ => false)

def isNullJson : Json → Bool
  | .null => true
  | _ => false

/-- The two captured mutable variables of a scan loop.  `conversationId` holds
a JavaScript value: `Json.null` is the initial `null` and whatever the guard
admitted afterwards. -/
structure ScanState where
  conversationId : Json
  isComplete : Bool

def scanInit : ScanState := ⟨.null, false⟩

/-- One line of the `QuizForm` loop body (truthiness guard:
`!conversationId && parsed.message?.conversationId`). -/
def quizStep (st : ScanState) (l : List Char) : ScanState :=
  if dataTag.isPrefixOf l then
    match jsonParse (l.drop 6) with
    | none => st
    | some parsed =>
      let st1 :=
        match cidOf parsed with
        | some v =>
          if !truthy st.conversationId && truthy v then { st with conversationId := v } else st
        | none => st
      if isTerminalJson parsed then { st1 with isComplete := true } else st1
  else st

/-- One line of the `LessonPlanForm` loop body (presence guard:
`conversationId === null && parsed.message?.conversationId !== undefined`). -/
def lessonStep (st : ScanState) (l : List Char) : ScanState :=
  if dataTag.isPrefixOf l then
    match jsonParse (l.drop 6) with
    | none => st
    | some parsed =>
      let st1 :=
        match cidOf parsed with
        | some v =>
          if isNullJson st.conversationId then { st with conversationId := v } else st
        | none => st
      if isTerminalJson parsed then { st1 with isComplete := true } else st1
  else st

/-- One line of the `AgentQuizForm` loop body (same guard as
`LessonPlanForm`). -/
def agentStep (st : ScanState) (l : List Char) : ScanState :=
  if dataTag.isPrefixOf l then
    match jsonParse (l.drop 6) with
    | none => st
    | some parsed =>
      let st1 :=
        match cidOf parsed with
        | some v =>
          if isNullJson st.conversationId then { st with conversationId := v } else st
        | none => st
      if isTerminalJson parsed then { st1 with isComplete := true } else st1
  else st

/-- The inner `for (const line of lines)` over one decoded chunk. -/
def quizChunk (st : ScanState) (c : List Char) : ScanState :=
  (splitNl c).foldl quizStep st

def lessonChunk (st : ScanState) (c : List Char) : ScanState :=
  (splitNl c).foldl lessonStep st

def agentChunk (st : ScanState) (c : List Char) : ScanState :=
  (splitNl c).foldl agentStep st

/-- The `while (!isComplete)` read loop: exhausting the stream sets
`isComplete` before breaking, so the loop always ends complete. -/
def quizScanLoop : ScanState → List (List Char) → ScanState
  | st, [] => if st.isComplete then st else { st with isComplete := true }
  | st, c :: rest => if st.isComplete then st else quizScanLoop (quizChunk st c) rest

def lessonScanLoop : ScanState → List (List Char) → ScanState
  | st, [] => if st.isComplete then st else { st with isComplete := true }
  | st, c :: rest => if st.isComplete then st else lessonScanLoop (lessonChunk st c) rest

def agentScanLoop : ScanState → List (List Char) → ScanState
  | st, [] => if st.isComplete then st else { st with isComplete := true }
  | st, c :: rest => if st.isComplete then st else agentScanLoop (agentChunk st c) rest

/-- `QuizForm.handleSubmit`'s scan of a whole stream, delivered as the given
chunks. -/
def quizScan (chunks : List (List Char)) : ScanState :=
  quizScanLoop scanInit chunks

/-- `LessonPlanForm.handleSubmit`'s scan. -/
def lessonScan (chunks : List (List Char)) : ScanState :=
  lessonScanLoop scanInit chunks

/-- `AgentQuizForm.handleSubmit`'s scan. -/
def agentScan (chunks : List (List Char)) : ScanState :=
  agentScanLoop scanInit chunks

/-! ## The moderation category parser

`parseOllamaResponse` in the server controller, and the category normalisation
and `flagged` computation from `moderateMessage`. -/

def fenceTag : List Char := "```json\n".data
def closeFence : List Char := "\n```".data
def noHarmTok : List Char := "no harmful content".data
def analysisTok : List Char := "analysis:".data
def categoriesTok : List Char := "categories:".data
def safeTok : List Char := "safe".data
def theMessageTok : List Char := "the message".data
def thisContentTok : List Char := "this content".data
def errorTok : List Char := "error".data
def unsafeTok : List Char := "unsafe".data

/-- `response.replace(/```json\n|\n```/g, '')`: scan left to right, at each
position removing a fence marker (preferring the first alternative, as the
regex engine does) or keeping the character.  Fuel-metered to stay structural;
`replaceFences` seeds it with the input length, which the adequacy lemmas show
is enough. -/
def replaceFencesAux : Nat → List Char → List Char
  | 0, l => l
  | _ + 1, [] => []
  | fuel + 1, c :: rest =>
    if fenceTag.isPrefixOf (c :: rest) then replaceFencesAux fuel ((c :: rest).drop 8)
    else if closeFence.isPrefixOf (c :: rest) then replaceFencesAux fuel ((c :: rest).drop 4)
    else c :: replaceFencesAux fuel rest

def replaceFences (l : List Char) : List Char :=
  replaceFencesAux l.length l

/-- `const cleanResponse = response.replace(/```json\n|\n```/g, '').trim()`. -/
def cleanOllama (s : List Char) : List Char :=
  trimJs (replaceFences s)

def startsWithCh (l : List Char) (c : Char) : Bool :=
  match l with
  | x :: _ => x = c
  | [] => false

def endsWithCh (l : List Char) (c : Char) : Bool :=
  match l.getLast? with
  | some x => x = c
  | none => false

/-- The JSON-array fast path: `if (cleanResponse.startsWith('[') &&
cleanResponse.endsWith(']')) return JSON.parse(cleanResponse)`, with a parse
failure falling through (`none`). -/
def jsonArrayAttempt (clean : List Char) : Option Json :=
  if startsWithCh clean '[' && endsWithCh clean ']' then jsonParse clean else none

/-- The line-based fallback's noise filter: split on newlines, trim and
lower-case each line, drop empty lines and narrative noise. -/
def ollamaLines (clean : List Char) : List (List Char) :=
  ((splitNl clean).map (fun l => lowerStr (trimJs l))).filter
    (fun l =>
      !l.isEmpty && !containsSub l noHarmTok && !containsSub l analysisTok &&
      !containsSub l categoriesTok)

/-- The line-based fallback of `parseOllamaResponse` (its lines 350–369): if
every noise-filtered line contains "safe" the result is `['safe']`, otherwise
the surviving lines with the further narrative filter applied. -/
def ollamaLineFallback (clean : List Char) : Json :=
  let lines := ollamaLines clean
  if lines.all (fun l => containsSub l safeTok) then .arr [.str safeTok]
  else
    .arr ((lines.filter
      (fun l => !containsSub l theMessageTok && !containsSub l thisContentTok)).map .str)

/-- `parseOllamaResponse`.  The JavaScript function returns either the value
parsed from a JSON array or an array of strings; both are returned here as a
`Json` value.  The `['error']` branch of the outer catch is unreachable for a
string argument — nothing in the body throws once the per-line `JSON.parse`
failure is swallowed — so it has no counterpart here. -/
def parseOllamaResponse (s : List Char) : Json :=
  match jsonArrayAttempt (cleanOllama s) with
  | some v => v
  | none => ollamaLineFallback (cleanOllama s)

/-- The per-category normalisation in `moderateMessage`: lower-case and trim;
a lower-case `s` followed only by digits whose value is 1..13 becomes `S`
followed by that same digit substring; everything else is returned as the
lower-cased trimmed text (the explicit `safe`/`unsafe` branch of the source
returns the same). -/
def normalizeCategory (c : List Char) : List Char :=
  let t := trimJs (lowerStr c)
  match t with
  | 's' :: d :: ds =>
    if (d :: ds).all Char.isDigit ∧ 1 ≤ digitsToNat (d :: ds) ∧ digitsToNat (d :: ds) ≤ 13 then
      'S' :: d :: ds
    else t
  | _ => t

/-- `['unsafe', 'S1', ..., 'S13']`. -/
def unsafeCategories : List (List Char) :=
  unsafeTok :: (List.range 13).map (fun i => 'S' :: Nat.toDigits 10 (i + 1))

/-- `categories.some(cat => unsafeCategories.includes(cat))`. -/
def flaggedOf (cs : List (List Char)) : Bool :=
  cs.any (fun c => unsafeCategories.any (fun u => u == c))

/-- `moderateMessage`'s handling of the parser's return value: a non-array
makes it return without saving (`none`); an array is mapped through the
normalisation, where a non-string element would throw (`none`, since the
enclosing catch then saves nothing). -/
def formatCategories : Json → Option (List (List Char))
  | .arr xs =>
    xs.mapM (fun x =>
      match x with
      | .str s => some (normalizeCategory s)
      | _ => none)
  | _ => none

/-- The moderation result actually persisted for a raw model response: the
normalised category list together with the derived `flagged` boolean. -/
def moderationOutcome (s : List Char) : Option (List (List Char) × Bool) :=
  (formatCategories (parseOllamaResponse s)).map (fun cs => (cs, flaggedOf cs))

/-! ## Observation functions over streams

Derived views of a stream used to state the claims: which lines are terminal
events, which conversation identifier arrives first, and which chunks the read
loop actually consumes. -/

/-- A line that parses to a terminal event (`final: true` or `done: true`). -/
def terminalLine (l : List Char) : Bool :=
  dataTag.isPrefixOf l &&
    (match jsonParse (l.drop 6) with
     | some p => isTerminalJson p
     | none => false)

/-- The conversation identifier a line carries, if any. -/
def lineCid (l : List Char) : Option Json :=
  if dataTag.isPrefixOf l then
    match jsonParse (l.drop 6) with
    | some p => cidOf p
    | none => none
  else none

/-- The conversation identifier a line carries, if truthy. -/
def truthyLineCid (l : List Char) : Option Json :=
  match lineCid l with
  | some v => if truthy v then some v else none
  | none => none

/-- Modelled from the spec: the first truthy nested conversation identifier
among the given lines, in arrival order — the value claim C2 says the scan
retains. -/
def firstTruthyCid : List (List Char) → Option Json
  | [] => none
  | l :: ls =>
    match truthyLineCid l with
    | some v => some v
    | none => firstTruthyCid ls

/-- A chunk one of whose lines is a terminal event. -/
def chunkTerminal (c : List Char) : Bool :=
  (splitNl c).any terminalLine

/-- The chunks the read loop consumes: everything up to and including the
first chunk containing a terminal event. -/
def readChunks : List (List Char) → List (List Char)
  | [] => []
  | c :: cs => c :: (if chunkTerminal c then [] else readChunks cs)

/-- All lines of a stream, in arrival order. -/
def allLines (cs : List (List Char)) : List (List Char) :=
  (cs.map splitNl).flatten

/-- The lines of the chunks the read loop consumes. -/
def inspectedLines (cs : List (List Char)) : List (List Char) :=
  allLines (readChunks cs)

/-- Modelled from the spec: the lines up to and including the first terminal
event — the lines claim C3 says are the only ones ever inspected. -/
def linesThroughTerminal : List (List Char) → List (List Char)
  | [] => []
  | l :: ls => if terminalLine l then [l] else l :: linesThroughTerminal ls

/-- Reassemble whole lines into one chunk, each line followed by its
newline — a newline-aligned chunk of a stream. -/
def lineChunk (ls : List (List Char)) : List Char :=
  (ls.map (fun l => l ++ ['\n'])).flatten

/-! ## A JSON renderer for string arrays

`JSON.stringify` on an array of strings, used to feed a category set back to
the parser (claim C9's idempotence round trip). -/

/-- Lower-case hexadecimal digit, as `JSON.stringify` emits in `\u00XX`. -/
def hexDigitChar (d : Nat) : Char :=
  ("0123456789abcdef".data).getD d '0'

/-- `JSON.stringify`'s escaping of one character inside a string literal. -/
def escChar (c : Char) : List Char :=
  if c = '"' then ['\\', '"']
  else if c = '\\' then ['\\', '\\']
  else if c = '\x08' then ['\\', 'b']
  else if c = '\t' then ['\\', 't']
  else if c = '\n' then ['\\', 'n']
  else if c = '\x0c' then ['\\', 'f']
  else if c = '\r' then ['\\', 'r']
  else if c.toNat < 0x20 then
    ['\\', 'u', '0', '0', hexDigitChar (c.toNat / 16), hexDigitChar (c.toNat % 16)]
  else [c]

def escStr : List Char → List Char
  | [] => []
  | c :: cs => escChar c ++ escStr cs

/-- The comma-separated string literals inside a rendered array. -/
def renderItems : List (List Char) → List Char
  | [] => []
  | [s] => '"' :: escStr s ++ ['"']
  | s :: rest => '"' :: escStr s ++ '"' :: ',' :: renderItems rest

/-- `JSON.stringify` of an array of strings. -/
def renderStringArray (cs : List (List Char)) : List Char :=
  '[' :: renderItems cs ++ [']']

/-- A stream all of whose conversation-identifier candidates are truthy (no
event carries an empty-string or otherwise falsy identifier). -/
def truthyCandidatesOnly (cs : List (List Char)) : Bool :=
  (allLines cs).all (fun l =>
    match lineCid l with
    | some v => truthy v
    | none => true)

/-! ## Lemmas: the scan loop as a fold over lines -/

theorem ScanState.withComplete_eq (st : ScanState) (h : st.isComplete = true) :
    { st with isComplete := true } = st := by
  cases st
  simp_all

theorem quizStep_isComplete (st : ScanState) (l : List Char) :
    (quizStep st l).isComplete = (st.isComplete || terminalLine l) := by
  rw [quizStep, terminalLine]
  by_cases h : dataTag.isPrefixOf l
  · simp only [h, if_true, Bool.true_and]
    cases hp : jsonParse (l.drop 6) with
    | none => simp
    | some parsed =>
      cases hc : cidOf parsed with
      | none => cases ht : isTerminalJson parsed <;> simp [ht, hc]
      | some v =>
        cases ht : isTerminalJson parsed <;>
          cases hg : truthy st.conversationId <;> cases hv : truthy v <;>
            simp [ht, hc, hg, hv]
  · simp [h]

theorem lessonStep_isComplete (st : ScanState) (l : List Char) :
    (lessonStep st l).isComplete = (st.isComplete || terminalLine l) := by
  rw [lessonStep, terminalLine]
  by_cases h : dataTag.isPrefixOf l
  · simp only [h, if_true, Bool.true_and]
    cases hp : jsonParse (l.drop 6) with
    | none => simp
    | some parsed =>
      cases hc : cidOf parsed with
      | none => cases ht : isTerminalJson parsed <;> simp [ht, hc]
      | some v =>
        cases ht : isTerminalJson parsed <;> cases hg : isNullJson st.conversationId <;>
          simp [ht, hc, hg]
  · simp [h]

theorem quizStep_conversationId (st : ScanState) (l : List Char) :
    (quizStep st l).conversationId =
      if truthy st.conversationId then st.conversationId
      else (truthyLineCid l).getD st.conversationId := by
  rw [quizStep, truthyLineCid, lineCid]
  by_cases h : dataTag.isPrefixOf l
  · simp only [h, if_true]
    cases hp : jsonParse (l.drop 6) with
    | none => cases ht : truthy st.conversationId <;> simp
    | some parsed =>
      cases hc : cidOf parsed with
      | none =>
        simp only [hc]
        cases ht : truthy st.conversationId <;> split <;> simp [ht]
      | some v =>
        simp only [hc]
        cases ht : truthy st.conversationId <;> cases hv : truthy v <;>
          split <;> simp [ht, hv]
  · cases ht : truthy st.conversationId <;> simp [h]

theorem foldl_quizStep_isComplete (ls : List (List Char)) (st : ScanState) :
    (ls.foldl quizStep st).isComplete = (st.isComplete || ls.any terminalLine) := by
  induction ls generalizing st with
  | nil => simp
  | cons l ls ih => simp [List.foldl_cons, ih, quizStep_isComplete, Bool.or_assoc]

theorem foldl_lessonStep_isComplete (ls : List (List Char)) (st : ScanState) :
    (ls.foldl lessonStep st).isComplete = (st.isComplete || ls.any terminalLine) := by
  induction ls generalizing st with
  | nil => simp
  | cons l ls ih => simp [List.foldl_cons, ih, lessonStep_isComplete, Bool.or_assoc]

theorem foldl_quizStep_conversationId (ls : List (List Char)) (st : ScanState) :
    (ls.foldl quizStep st).conversationId =
      if truthy st.conversationId then st.conversationId
      else (firstTruthyCid ls).getD st.conversationId := by
  induction ls generalizing st with
  | nil => simp [firstTruthyCid]
  | cons l ls ih =>
    rw [List.foldl_cons, ih, firstTruthyCid]
    cases hcur : truthy st.conversationId with
    | true =>
      have h1 : (quizStep st l).conversationId = st.conversationId := by
        rw [quizStep_conversationId, hcur]
        simp
      simp [h1, hcur]
    | false =>
      cases hc : truthyLineCid l with
      | none =>
        have h1 : (quizStep st l).conversationId = st.conversationId := by
          rw [quizStep_conversationId, hcur, hc]
          simp
        simp [h1, hcur, hc]
      | some v =>
        have hv : truthy v = true := by
          unfold truthyLineCid at hc
          cases hl : lineCid l with
          | none => rw [hl] at hc; exact absurd hc (by simp)
          | some w =>
            rw [hl] at hc
            simp only [Option.ite_none_right_eq_some, Option.some.injEq] at hc
            rw [← hc.2]
            exact hc.1
        have h1 : (quizStep st l).conversationId = v := by
          rw [quizStep_conversationId, hcur, hc]
          simp
        simp [h1, hcur, hc, hv]

theorem quizChunk_isComplete (st : ScanState) (c : List Char) :
    (quizChunk st c).isComplete = (st.isComplete || chunkTerminal c) := by
  rw [quizChunk, chunkTerminal, foldl_quizStep_isComplete]

theorem lessonChunk_isComplete (st : ScanState) (c : List Char) :
    (lessonChunk st c).isComplete = (st.isComplete || chunkTerminal c) := by
  rw [lessonChunk, chunkTerminal, foldl_lessonStep_isComplete]

theorem quizScanLoop_of_complete (st : ScanState) (cs : List (List Char))
    (h : st.isComplete = true) : quizScanLoop st cs = st := by
  cases cs <;> simp [quizScanLoop, h]

theorem lessonScanLoop_of_complete (st : ScanState) (cs : List (List Char))
    (h : st.isComplete = true) : lessonScanLoop st cs = st := by
  cases cs <;> simp [lessonScanLoop, h]

theorem quizScanLoop_eq_foldl (cs : List (List Char)) (st : ScanState)
    (h : st.isComplete = false) :
    quizScanLoop st cs = { (readChunks cs).foldl quizChunk st with isComplete := true } := by
  induction cs generalizing st with
  | nil => simp [quizScanLoop, h, readChunks]
  | cons c cs ih =>
    rw [quizScanLoop, if_neg (by simp [h]), readChunks]
    cases ht : chunkTerminal c with
    | true =>
      have hcomp : (quizChunk st c).isComplete = true := by
        rw [quizChunk_isComplete, h, ht]
        rfl
      rw [quizScanLoop_of_complete _ _ hcomp]
      simp [ScanState.withComplete_eq _ hcomp]
    | false =>
      have hcomp : (quizChunk st c).isComplete = false := by
        rw [quizChunk_isComplete, h, ht]
        rfl
      rw [ih _ hcomp]
      simp

theorem lessonScanLoop_eq_foldl (cs : List (List Char)) (st : ScanState)
    (h : st.isComplete = false) :
    lessonScanLoop st cs = { (readChunks cs).foldl lessonChunk st with isComplete := true } := by
  induction cs generalizing st with
  | nil => simp [lessonScanLoop, h, readChunks]
  | cons c cs ih =>
    rw [lessonScanLoop, if_neg (by simp [h]), readChunks]
    cases ht : chunkTerminal c with
    | true =>
      have hcomp : (lessonChunk st c).isComplete = true := by
        rw [lessonChunk_isComplete, h, ht]
        rfl
      rw [lessonScanLoop_of_complete _ _ hcomp]
      simp [ScanState.withComplete_eq _ hcomp]
    | false =>
      have hcomp : (lessonChunk st c).isComplete = false := by
        rw [lessonChunk_isComplete, h, ht]
        rfl
      rw [ih _ hcomp]
      simp

theorem foldl_quizChunk_eq_lines (cs : List (List Char)) (st : ScanState) :
    cs.foldl quizChunk st = (allLines cs).foldl quizStep st := by
  induction cs generalizing st with
  | nil => rfl
  | cons c cs ih =>
    rw [List.foldl_cons, ih]
    show _ = ((c :: cs).map splitNl).flatten.foldl quizStep st
    rw [List.map_cons, List.flatten_cons, List.foldl_append]
    rfl

theorem foldl_lessonChunk_eq_lines (cs : List (List Char)) (st : ScanState) :
    cs.foldl lessonChunk st = (allLines cs).foldl lessonStep st := by
  induction cs generalizing st with
  | nil => rfl
  | cons c cs ih =>
    rw [List.foldl_cons, ih]
    show _ = ((c :: cs).map splitNl).flatten.foldl lessonStep st
    rw [List.map_cons, List.flatten_cons, List.foldl_append]
    rfl

/-- The scan, in closed form: fold the line handler over the lines of the
chunks the loop reads, then mark complete. -/
theorem quizScan_eq (cs : List (List Char)) :
    quizScan cs = { (inspectedLines cs).foldl quizStep scanInit with isComplete := true } := by
  rw [quizScan, quizScanLoop_eq_foldl _ _ rfl, foldl_quizChunk_eq_lines]
  rfl

theorem lessonScan_eq (cs : List (List Char)) :
    lessonScan cs = { (inspectedLines cs).foldl lessonStep scanInit with isComplete := true } := by
  rw [lessonScan, lessonScanLoop_eq_foldl _ _ rfl, foldl_lessonChunk_eq_lines]
  rfl

/-- Every scan ends with `isComplete = true`: the stream-end branch sets it
before breaking. -/
theorem quizScan_isComplete (cs : List (List Char)) :
    (quizScan cs).isComplete = true := by
  rw [quizScan_eq]

theorem quizStep_nil (st : ScanState) : quizStep st [] = st := rfl

theorem terminalLine_nil : terminalLine [] = false := rfl

/-- Splitting a newline-terminated line off the front of a buffer. -/
theorem splitNl_append_line (l rest : List Char) (h : ('\n' : Char) ∉ l) :
    splitNl (l ++ '\n' :: rest) = l :: splitNl rest := by
  induction l with
  | nil => rfl
  | cons c l ih =>
    have hc : ¬c = '\n' := fun hc => h (hc ▸ List.mem_cons_self c l)
    have ih' := ih (fun hm => h (List.mem_cons_of_mem c hm))
    rw [List.cons_append, splitNl, if_neg hc, ih']

/-- A chunk assembled from whole newline-free lines splits back into exactly
those lines, plus the empty fragment after the final newline. -/
theorem splitNl_lineChunk (ls : List (List Char)) (h : ∀ l ∈ ls, ('\n' : Char) ∉ l) :
    splitNl (lineChunk ls) = ls ++ [[]] := by
  induction ls with
  | nil => rfl
  | cons l ls ih =>
    have h1 : ('\n' : Char) ∉ l := h l (List.mem_cons_self l ls)
    have h2 : ∀ x ∈ ls, ('\n' : Char) ∉ x := fun x hx => h x (List.mem_cons_of_mem l hx)
    show splitNl ((l ++ ['\n']) ++ lineChunk ls) = _
    rw [List.append_assoc, List.singleton_append, splitNl_append_line l _ h1, ih h2]
    rfl

theorem chunkTerminal_lineChunk (ls : List (List Char)) (hnl : ∀ l ∈ ls, ('\n' : Char) ∉ l)
    (hterm : ∀ l ∈ ls, terminalLine l = false) :
    chunkTerminal (lineChunk ls) = false := by
  rw [chunkTerminal, splitNl_lineChunk ls hnl, List.any_append]
  have h1 : ls.any terminalLine = false := by
    rw [List.any_eq_false]
    intro l hl
    simp [hterm l hl]
  rw [h1]
  rfl

theorem quizChunk_lineChunk (st : ScanState) (ls : List (List Char))
    (h : ∀ l ∈ ls, ('\n' : Char) ∉ l) :
    quizChunk st (lineChunk ls) = ls.foldl quizStep st := by
  rw [quizChunk, splitNl_lineChunk ls h, List.foldl_append]
  rfl

/-- With no terminal event anywhere, the loop reads every chunk. -/
theorem readChunks_of_no_terminal (cs : List (List Char))
    (h : ∀ c ∈ cs, chunkTerminal c = false) : readChunks cs = cs := by
  induction cs with
  | nil => rfl
  | cons c cs ih =>
    rw [readChunks, if_neg (by simp [h c (List.mem_cons_self c cs)]),
      ih (fun x hx => h x (List.mem_cons_of_mem c hx))]

/-- Consumed chunks are chunks of the stream. -/
theorem mem_of_mem_readChunks (cs : List (List Char)) (c : List Char)
    (h : c ∈ readChunks cs) : c ∈ cs := by
  induction cs with
  | nil => exact absurd h (by simp [readChunks])
  | cons c0 cs ih =>
    rw [readChunks] at h
    rcases List.mem_cons.1 h with h1 | h1
    · exact h1 ▸ List.mem_cons_self c0 cs
    · rcases ht : chunkTerminal c0 with _ | _ <;> rw [ht] at h1
      · exact List.mem_cons_of_mem c0 (ih h1)
      · exact absurd h1 (by simp)

/-- Everything after the first terminal chunk is dead: the loop's footprint is
the same whether or not those chunks exist. -/
theorem readChunks_append_terminal (cs1 : List (List Char)) (c : List Char)
    (cs2 : List (List Char)) (h : chunkTerminal c = true) :
    readChunks (cs1 ++ c :: cs2) = readChunks (cs1 ++ [c]) := by
  induction cs1 with
  | nil => simp [readChunks, h]
  | cons c0 cs1 ih => simp [readChunks, ih]

theorem foldl_quizChunk_map_lineChunk (groups : List (List (List Char))) (st : ScanState)
    (h : ∀ l ∈ groups.flatten, ('\n' : Char) ∉ l) :
    (groups.map lineChunk).foldl quizChunk st = groups.flatten.foldl quizStep st := by
  induction groups generalizing st with
  | nil => rfl
  | cons g groups ih =>
    have hg : ∀ l ∈ g, ('\n' : Char) ∉ l := fun l hl =>
      h l (by rw [List.flatten_cons]; exact List.mem_append_left _ hl)
    have hrest : ∀ l ∈ groups.flatten, ('\n' : Char) ∉ l := fun l hl =>
      h l (by rw [List.flatten_cons]; exact List.mem_append_right _ hl)
    rw [List.map_cons, List.foldl_cons, ih _ hrest, quizChunk_lineChunk st g hg,
      List.flatten_cons, List.foldl_append]

theorem isNullJson_eq_false_of_truthy (j : Json) (h : truthy j = true) :
    isNullJson j = false := by
  cases j <;> simp_all [truthy, isNullJson]

/-- On a line whose conversation-identifier candidate (if any) is truthy, the
`QuizForm` and `LessonPlanForm` loop bodies take the same action, and a state
whose identifier is `null` or truthy stays so. -/
theorem step_agree (st : ScanState) (l : List Char)
    (hinv : st.conversationId = Json.null ∨ truthy st.conversationId = true)
    (hl : ∀ v, lineCid l = some v → truthy v = true) :
    quizStep st l = lessonStep st l ∧
      ((quizStep st l).conversationId = Json.null ∨
        truthy (quizStep st l).conversationId = true) := by
  by_cases hd : dataTag.isPrefixOf l
  · cases hp : jsonParse (l.drop 6) with
    | none =>
      rw [quizStep, lessonStep, if_pos hd, if_pos hd, hp]
      exact ⟨rfl, hinv⟩
    | some parsed =>
      have hlc : lineCid l = cidOf parsed := by rw [lineCid, if_pos hd, hp]
      rw [quizStep, lessonStep, if_pos hd, if_pos hd, hp]
      cases hc : cidOf parsed with
      | none =>
        simp only [hc]
        refine ⟨trivial, ?_⟩
        split <;> exact hinv
      | some v =>
        have hv : truthy v = true := hl v (hlc.trans hc)
        rcases hinv with hnull | htr
        · have g1 : (!truthy st.conversationId && truthy v) = true := by
            rw [hnull, hv]
            rfl
          have g2 : isNullJson st.conversationId = true := by
            rw [hnull]
            rfl
          simp only [hc, g1, g2, if_true]
          refine ⟨trivial, ?_⟩
          split <;> exact Or.inr hv
        · have g1 : (!truthy st.conversationId && truthy v) = false := by
            rw [htr]
            rfl
          have g2 : isNullJson st.conversationId = false :=
            isNullJson_eq_false_of_truthy _ htr
          simp only [hc, g1, g2, Bool.false_eq_true, if_false]
          refine ⟨trivial, ?_⟩
          split <;> exact Or.inr htr
  · rw [quizStep, lessonStep, if_neg hd, if_neg hd]
    exact ⟨rfl, hinv⟩

theorem foldl_agree (ls : List (List Char)) (st : ScanState)
    (hinv : st.conversationId = Json.null ∨ truthy st.conversationId = true)
    (hls : ∀ l ∈ ls, ∀ v, lineCid l = some v → truthy v = true) :
    ls.foldl quizStep st = ls.foldl lessonStep st ∧
      ((ls.foldl quizStep st).conversationId = Json.null ∨
        truthy (ls.foldl quizStep st).conversationId = true) := by
  induction ls generalizing st with
  | nil => exact ⟨rfl, hinv⟩
  | cons l ls ih =>
    have hstep := step_agree st l hinv (hls l (List.mem_cons_self l ls))
    have hrest := ih (quizStep st l) hstep.2
      (fun x hx => hls x (List.mem_cons_of_mem l hx))
    rw [List.foldl_cons, List.foldl_cons, ← hstep.1]
    exact hrest

/-- The `LessonPlanForm` and `AgentQuizForm` read loops are the same function:
their bodies are definitionally equal line by line. -/
theorem lessonScanLoop_eq_agentScanLoop (cs : List (List Char)) :
    ∀ st, lessonScanLoop st cs = agentScanLoop st cs := by
  induction cs with
  | nil => intro st; rfl
  | cons c cs ih =>
    intro st
    show (if st.isComplete = true then st else lessonScanLoop (lessonChunk st c) cs)
      = (if st.isComplete = true then st else agentScanLoop (agentChunk st c) cs)
    rw [ih (lessonChunk st c)]
    rfl

theorem mem_allLines_of_mem_inspectedLines (cs : List (List Char)) (l : List Char)
    (h : l ∈ inspectedLines cs) : l ∈ allLines cs := by
  rw [inspectedLines, allLines, List.mem_flatten] at *
  rcases h with ⟨lines, hlines, hl⟩
  rcases List.mem_map.1 hlines with ⟨c, hc, rfl⟩
  exact ⟨splitNl c, List.mem_map_of_mem splitNl (mem_of_mem_readChunks cs c hc), hl⟩

/-! ## Claim C1 -/

/-- Claim C1 as stated is false: the scan does NOT preserve a partial final
line across a chunk boundary — each chunk is split on newlines independently
and a fragment of a `"data: "` line is simply an unparseable (or unprefixed)
line.  Splitting the single line `data: {"message":{"conversationId":"abc"}}`
in the middle of the word `message` yields a scan with no conversation
identifier, while single-chunk delivery of the very same characters yields
`"abc"`. -/
theorem C1_counterexample :
    ("data: \x7b\"mess".data) ++ ("age\":\x7b\"conversationId\":\"abc\"\x7d\x7d\n".data)
        = ("data: \x7b\"message\":\x7b\"conversationId\":\"abc\"\x7d\x7d\n".data) ∧
      (quizScan [("data: \x7b\"mess".data),
        ("age\":\x7b\"conversationId\":\"abc\"\x7d\x7d\n".data)]).conversationId = Json.null ∧
      (quizScan [("data: \x7b\"message\":\x7b\"conversationId\":\"abc\"\x7d\x7d\n".data)]).conversationId
        = Json.str ("abc".data) ∧
      Json.null ≠ Json.str ("abc".data) :=
  ⟨rfl, rfl, rfl, fun h => Json.noConfusion h⟩

/-- Claim C1, amended: the scan discards a partial final line at each chunk
boundary instead of buffering it, so chunk-boundary independence fails in
general; it does hold for newline-aligned splits of a stream that contains no
terminal event: delivering whole lines grouped into chunks in any way gives
the same `ScanResult` as delivering them as one single chunk. -/
theorem C1_amended (groups : List (List (List Char)))
    (hnl : ∀ l ∈ groups.flatten, ('\n' : Char) ∉ l)
    (hterm : ∀ l ∈ groups.flatten, terminalLine l = false) :
    quizScan (groups.map lineChunk) = quizScan [lineChunk groups.flatten] := by
  have hgroups : ∀ g ∈ groups, chunkTerminal (lineChunk g) = false := by
    intro g hg
    refine chunkTerminal_lineChunk g (fun l hl => hnl l ?_) (fun l hl => hterm l ?_) <;>
      exact List.mem_flatten.2 ⟨g, hg, hl⟩
  have hchunks : ∀ c ∈ groups.map lineChunk, chunkTerminal c = false := by
    intro c hc
    rcases List.mem_map.1 hc with ⟨g, hg, rfl⟩
    exact hgroups g hg
  rw [quizScan, quizScan, quizScanLoop_eq_foldl _ _ rfl, quizScanLoop_eq_foldl _ _ rfl,
    readChunks_of_no_terminal _ hchunks,
    readChunks_of_no_terminal _
      (by
        intro c hc
        rcases List.mem_singleton.1 hc with rfl
        exact chunkTerminal_lineChunk _ hnl hterm),
    foldl_quizChunk_map_lineChunk _ _ hnl]
  show _ = { quizChunk scanInit (lineChunk groups.flatten) with isComplete := true }
  rw [quizChunk_lineChunk _ _ hnl]

/-- Witness for `C1_amended`: the two-line stream `data:
{"message":{"conversationId":"abc"}}` / `data: {"final":true}` — wait, kept
terminal-free — delivered one line per chunk equals single-chunk delivery. -/
theorem C1_witness :
    (∀ l ∈ [[("data: \x7b\"message\":\x7b\"conversationId\":\"abc\"\x7d\x7d".data)],
        [("data: \x7b\"done\":false\x7d".data)]].flatten, ('\n' : Char) ∉ l) ∧
    (∀ l ∈ [[("data: \x7b\"message\":\x7b\"conversationId\":\"abc\"\x7d\x7d".data)],
        [("data: \x7b\"done\":false\x7d".data)]].flatten, terminalLine l = false) ∧
    quizScan ([[("data: \x7b\"message\":\x7b\"conversationId\":\"abc\"\x7d\x7d".data)],
        [("data: \x7b\"done\":false\x7d".data)]].map lineChunk)
      = quizScan [lineChunk [[("data: \x7b\"message\":\x7b\"conversationId\":\"abc\"\x7d\x7d".data)],
        [("data: \x7b\"done\":false\x7d".data)]].flatten] :=
  ⟨by decide, by decide, C1_amended _ (by decide) (by decide)⟩

/-! ## Claim C2 -/

/-- Claim C2 as stated is false: in the stream whose first chunk is a terminal
event and whose second chunk carries the stream's first (truthy) conversation
identifier `"abc"`, the identifier-carrying event is never reached, so the
scan ends with `conversationId` still `null` instead of the first truthy
identifier of the stream. -/
theorem C2_counterexample :
    firstTruthyCid (allLines [("data: \x7b\"final\":true\x7d\n".data),
        ("data: \x7b\"message\":\x7b\"conversationId\":\"abc\"\x7d\x7d\n".data)])
        = some (Json.str ("abc".data)) ∧
      (quizScan [("data: \x7b\"final\":true\x7d\n".data),
        ("data: \x7b\"message\":\x7b\"conversationId\":\"abc\"\x7d\x7d\n".data)]).conversationId
        = Json.null ∧
      Json.null ≠ Json.str ("abc".data) :=
  ⟨rfl, rfl, fun h => Json.noConfusion h⟩

/-- Claim C2, amended: among the lines the scan actually inspects (the lines
of the chunks read before the loop stops), the first event carrying a truthy
nested conversation identifier sets `conversationId`, and no later inspected
event — with the same or a different identifier — ever overrides it
(first-write-wins); an identifier arriving after the terminal chunk is never
seen. -/
theorem C2_amended (cs : List (List Char)) :
    (quizScan cs).conversationId = (firstTruthyCid (inspectedLines cs)).getD Json.null := by
  rw [quizScan_eq]
  show ((inspectedLines cs).foldl quizStep scanInit).conversationId = _
  rw [foldl_quizStep_conversationId]
  rfl

/-! ## Claim C3 -/

/-- Claim C3 as stated is false: lines after a terminal event ARE still
inspected when they arrive in the same chunk.  In the single chunk holding
`data: {"final":true}` then `data: {"message":{"conversationId":"xyz"}}`, the
first line is terminal, the truncated-at-terminal prefix carries no truthy
identifier, and yet the scan ends with `conversationId = "xyz"` — which could
only come from inspecting the post-terminal line. -/
theorem C3_counterexample :
    terminalLine ("data: \x7b\"final\":true\x7d".data) = true ∧
      firstTruthyCid (linesThroughTerminal
        (allLines [("data: \x7b\"final\":true\x7d\ndata: \x7b\"message\":\x7b\"conversationId\":\"xyz\"\x7d\x7d\n".data)]))
        = none ∧
      (quizScan [("data: \x7b\"final\":true\x7d\ndata: \x7b\"message\":\x7b\"conversationId\":\"xyz\"\x7d\x7d\n".data)]).conversationId
        = Json.str ("xyz".data) :=
  ⟨rfl, rfl, rfl⟩

/-- Claim C3, amended: a terminal event (`final: true` or `done: true`) makes
the scan stop reading further chunks and end with `complete = true`; chunks
after the one containing the terminal event are never inspected (the
remaining lines of that same chunk, however, are still processed). -/
theorem C3_amended (cs1 : List (List Char)) (c : List Char) (cs2 : List (List Char))
    (h : chunkTerminal c = true) :
    quizScan (cs1 ++ c :: cs2) = quizScan (cs1 ++ [c]) ∧
      (quizScan (cs1 ++ c :: cs2)).isComplete = true := by
  constructor
  · rw [quizScan, quizScan, quizScanLoop_eq_foldl _ _ rfl, quizScanLoop_eq_foldl _ _ rfl,
      readChunks_append_terminal cs1 c cs2 h]
  · exact quizScan_isComplete _

/-- Witness for `C3_amended`, on the spec's own example delivered one line per
chunk: the trailing `"xyz"` chunk is dead, and the result is
`{conversationId := "abc", complete := true}`. -/
theorem C3_witness :
    chunkTerminal ("data: \x7b\"final\":true\x7d\n".data) = true ∧
      quizScan ([("data: \x7b\"message\":\x7b\"conversationId\":\"abc\"\x7d\x7d\n".data)]
          ++ ("data: \x7b\"final\":true\x7d\n".data)
          :: [("data: \x7b\"message\":\x7b\"conversationId\":\"xyz\"\x7d\x7d\n".data)])
        = quizScan ([("data: \x7b\"message\":\x7b\"conversationId\":\"abc\"\x7d\x7d\n".data)]
          ++ [("data: \x7b\"final\":true\x7d\n".data)]) ∧
      quizScan ([("data: \x7b\"message\":\x7b\"conversationId\":\"abc\"\x7d\x7d\n".data)]
          ++ [("data: \x7b\"final\":true\x7d\n".data)])
        = ⟨Json.str ("abc".data), true⟩ :=
  ⟨rfl,
    (C3_amended [("data: \x7b\"message\":\x7b\"conversationId\":\"abc\"\x7d\x7d\n".data)]
      ("data: \x7b\"final\":true\x7d\n".data)
      [("data: \x7b\"message\":\x7b\"conversationId\":\"xyz\"\x7d\x7d\n".data)] rfl).1,
    rfl⟩

/-! ## Claim C5 -/

/-- Claim C5 as stated is false: on an event whose nested conversation
identifier is the empty string, `QuizForm`'s truthiness guard skips it (a
later event can still set the identifier), while `LessonPlanForm`'s
presence guard latches it; the two scans return different identifiers for
the same stream. -/
theorem C5_counterexample :
    (quizScan [("data: \x7b\"message\":\x7b\"conversationId\":\"\"\x7d\x7d\ndata: \x7b\"message\":\x7b\"conversationId\":\"abc\"\x7d\x7d\n".data)]).conversationId
        = Json.str ("abc".data) ∧
      (lessonScan [("data: \x7b\"message\":\x7b\"conversationId\":\"\"\x7d\x7d\ndata: \x7b\"message\":\x7b\"conversationId\":\"abc\"\x7d\x7d\n".data)]).conversationId
        = Json.str [] ∧
      Json.str ("abc".data) ≠ Json.str [] :=
  ⟨rfl, rfl, fun h => by simpa using Json.str.inj h⟩

/-- Claim C5, amended: the `LessonPlanForm` and `AgentQuizForm` scan loops are
extensionally equal (their guards are identical), and `QuizForm`'s scan agrees
with them on every stream whose conversation-identifier candidates are all
truthy; the three differ only on falsy (e.g. empty-string) identifiers, which
`QuizForm` skips and the other two latch. -/
theorem C5_amended :
    (∀ cs, lessonScan cs = agentScan cs) ∧
      (∀ cs, truthyCandidatesOnly cs = true → quizScan cs = lessonScan cs) := by
  constructor
  · intro cs
    rw [lessonScan, agentScan, lessonScanLoop_eq_agentScanLoop]
  · intro cs h
    have hls : ∀ l ∈ inspectedLines cs, ∀ v, lineCid l = some v → truthy v = true := by
      intro l hl v hv
      have hall := List.all_eq_true.1 h l (mem_allLines_of_mem_inspectedLines cs l hl)
      rw [hv] at hall
      exact hall
    rw [quizScan_eq, lessonScan_eq,
      (foldl_agree (inspectedLines cs) scanInit (Or.inl rfl) hls).1]

/-- Witness for `C5_amended`: on a stream with one truthy identifier `"abc"`
followed by a terminal event, all three scans agree. -/
theorem C5_witness :
    lessonScan [("data: \x7b\"message\":\x7b\"conversationId\":\"abc\"\x7d\x7d\ndata: \x7b\"final\":true\x7d\n".data)]
        = agentScan [("data: \x7b\"message\":\x7b\"conversationId\":\"abc\"\x7d\x7d\ndata: \x7b\"final\":true\x7d\n".data)] ∧
      truthyCandidatesOnly [("data: \x7b\"message\":\x7b\"conversationId\":\"abc\"\x7d\x7d\ndata: \x7b\"final\":true\x7d\n".data)] = true ∧
      quizScan [("data: \x7b\"message\":\x7b\"conversationId\":\"abc\"\x7d\x7d\ndata: \x7b\"final\":true\x7d\n".data)]
        = lessonScan [("data: \x7b\"message\":\x7b\"conversationId\":\"abc\"\x7d\x7d\ndata: \x7b\"final\":true\x7d\n".data)] :=
  ⟨C5_amended.1 _, rfl, C5_amended.2 _ rfl⟩

/-! ## Claim C8 -/

/-- Claim C8 (confirmed): a line that begins with `"data: "` but whose
remainder fails to parse as JSON is skipped — the state is unchanged — and
scanning simply continues with the following lines; a malformed line never
aborts the scan. -/
theorem C8_theorem (st : ScanState) (l : List Char)
    (hdata : dataTag.isPrefixOf l = true) (hbad : jsonParse (l.drop 6) = none) :
    quizStep st l = st ∧ ∀ ls : List (List Char), (l :: ls).foldl quizStep st = ls.foldl quizStep st := by
  have h1 : quizStep st l = st := by
    rw [quizStep, if_pos hdata, hbad]
  exact ⟨h1, fun ls => by rw [List.foldl_cons, h1]⟩

/-- Witness for `C8_theorem`: the malformed line `data: {oops` is skipped and
the scan of the rest is unaffected. -/
theorem C8_witness :
    dataTag.isPrefixOf ("data: \x7boops".data) = true ∧
      jsonParse (("data: \x7boops".data).drop 6) = none ∧
      quizStep scanInit ("data: \x7boops".data) = scanInit :=
  ⟨rfl, rfl, (C8_theorem scanInit ("data: \x7boops".data) rfl rfl).1⟩

/-! ## Claim C4 -/

/-- Claim C4 as stated is false: unparseable garbage does NOT produce the
`["error"]` fallback.  A garbage string falls through the (inner, swallowed)
JSON attempt into the line-based parser and is returned verbatim as a
category token; the outer catch that returns `['error']` is unreachable for a
string input. -/
theorem C4_counterexample :
    jsonParse ("@@@garbage".data) = none ∧
      parseOllamaResponse ("@@@garbage".data) = Json.arr [Json.str ("@@@garbage".data)] ∧
      Json.arr [Json.str ("@@@garbage".data)] ≠ Json.arr [Json.str errorTok] := by
  refine ⟨rfl, rfl, fun h => ?_⟩
  have h1 := Json.arr.inj h
  injection h1 with h2 h3
  injection h2 with h4
  exact absurd h4 (by decide)

/-- Claim C4, amended: no exception escapes the parser — it is a total
function of the input text — but garbage is not mapped to `["error"]`: any
input whose cleaned text does not go through the JSON-array fast path is
handed to the line-based fallback, which returns `["safe"]` when every
surviving noise-filtered line contains `"safe"` and otherwise the surviving
lines themselves, verbatim; the `['error']` branch fires only if the parser's
own body were to throw, which no string input causes. -/
theorem C4_amended (s : List Char) (h : jsonArrayAttempt (cleanOllama s) = none) :
    parseOllamaResponse s =
      (if (ollamaLines (cleanOllama s)).all (fun l => containsSub l safeTok) then
        Json.arr [Json.str safeTok]
      else
        Json.arr (((ollamaLines (cleanOllama s)).filter
          (fun l => !containsSub l theMessageTok && !containsSub l thisContentTok)).map
            Json.str)) := by
  rw [parseOllamaResponse, h]
  rfl

/-- Witness for `C4_amended`: the garbage input `%%junk` takes the line-based
path and is preserved verbatim as a category token. -/
theorem C4_witness :
    jsonArrayAttempt (cleanOllama ("%%junk".data)) = none ∧
      parseOllamaResponse ("%%junk".data) = Json.arr [Json.str ("%%junk".data)] :=
  ⟨rfl, (C4_amended ("%%junk".data) rfl).trans rfl⟩

/-! ## Claim C6 -/

/-- Claim C6 as stated is false: the code rewrites `s<digits>` to `S` followed
by the ORIGINAL digit substring, keeping a leading zero — `"s05"` becomes
`"S05"`, not the claim's `"S5"`. -/
theorem C6_counterexample :
    normalizeCategory ("s05".data) = "S05".data ∧ "S05".data ≠ "S5".data :=
  ⟨rfl, by decide⟩

/-- Claim C6, amended: normalisation lower-cases and trims the candidate; if
the result is the letter `s` followed by one or more digits whose numeric
value is between 1 and 13, it is rewritten to a capital `S` followed by that
same digit substring (a leading zero is preserved, so `"s05"` becomes
`"S05"`); `"safe"` and `"unsafe"` are kept lower-case as-is, and any other
candidate is kept as its trimmed lower-case text verbatim. -/
theorem C6_amended :
    (∀ c ds, trimJs (lowerStr c) = 's' :: ds → ds ≠ [] → ds.all Char.isDigit = true →
        1 ≤ digitsToNat ds → digitsToNat ds ≤ 13 → normalizeCategory c = 'S' :: ds) ∧
      (∀ c, (∀ ds, trimJs (lowerStr c) = 's' :: ds → ds ≠ [] → ds.all Char.isDigit = true →
          ¬(1 ≤ digitsToNat ds ∧ digitsToNat ds ≤ 13)) →
        normalizeCategory c = trimJs (lowerStr c)) ∧
      normalizeCategory ("safe".data) = safeTok ∧
      normalizeCategory ("unsafe".data) = unsafeTok := by
  refine ⟨?_, ?_, rfl, rfl⟩
  · intro c ds hshape hne hdig h1 h13
    rcases ds with _ | ⟨d, ds⟩
    · exact absurd rfl hne
    · rw [normalizeCategory]
      simp only [hshape]
      rw [if_pos ⟨hdig, h1, h13⟩]
  · intro c hno
    rw [normalizeCategory]
    split
    next d ds heq =>
      rw [if_neg]
      intro hcond
      exact hno (d :: ds) heq (by simp) hcond.1 ⟨hcond.2.1, hcond.2.2⟩
    next _ => rfl

/-- Witness for `C6_amended`: `"s05"` (in range, leading zero) normalises to
`"S05"`, and `"hate"` is preserved verbatim. -/
theorem C6_witness :
    normalizeCategory ("s05".data) = 'S' :: ("05".data) ∧
      normalizeCategory ("hate".data) = trimJs (lowerStr ("hate".data)) :=
  ⟨C6_amended.1 ("s05".data) ("05".data) rfl (by decide) (by decide) (by decide) (by decide),
    C6_amended.2.1 ("hate".data) (by
      intro ds h
      have h2 : ('h' : Char) = 's' := by
        have h3 := congrArg List.head? h
        simp only [List.head?] at h3
        exact Option.some.inj h3
      exact absurd h2 (by decide))⟩

/-! ## Claim C7 -/

/-- Claim C7 (confirmed): the derived `flagged` boolean is true exactly when
the final category set meets `{"unsafe", "S1", ..., "S13"}`; and on the parser
input `["hate","violence"]` the persisted outcome is the categories
`["hate","violence"]` with `flagged = false`. -/
theorem C7_theorem :
    (∀ cs : List (List Char), flaggedOf cs = true ↔
        ∃ c ∈ cs, c = unsafeTok ∨ ∃ n, 1 ≤ n ∧ n ≤ 13 ∧ c = 'S' :: Nat.toDigits 10 n) ∧
      moderationOutcome ("[\"hate\",\"violence\"]".data)
        = some ([("hate".data), ("violence".data)], false) := by
  refine ⟨?_, rfl⟩
  intro cs
  rw [flaggedOf, List.any_eq_true]
  constructor
  · rintro ⟨c, hc, hmem⟩
    refine ⟨c, hc, ?_⟩
    rw [List.any_eq_true] at hmem
    rcases hmem with ⟨u, hu, hbeq⟩
    have hue : u = c := by simpa using hbeq
    subst hue
    rw [unsafeCategories] at hu
    rcases List.mem_cons.1 hu with h1 | h1
    · exact Or.inl h1
    · rcases List.mem_map.1 h1 with ⟨i, hi, rfl⟩
      have hlt : i < 13 := List.mem_range.1 hi
      exact Or.inr ⟨i + 1, by omega, by omega, rfl⟩
  · rintro ⟨c, hc, hform⟩
    refine ⟨c, hc, ?_⟩
    rw [List.any_eq_true]
    rcases hform with h1 | ⟨n, hn1, hn13, rfl⟩
    · exact ⟨unsafeTok, by rw [unsafeCategories]; exact List.mem_cons_self _ _, by simp [h1]⟩
    · refine ⟨'S' :: Nat.toDigits 10 n, ?_, by simp⟩
      rw [unsafeCategories]
      refine List.mem_cons_of_mem _ (List.mem_map.2 ⟨n - 1, List.mem_range.2 (by omega), ?_⟩)
      have he : n - 1 + 1 = n := by omega
      rw [he]

/-- Witness for `C7_theorem`: the singleton set `["S3"]` is flagged. -/
theorem C7_witness : flaggedOf [("S3".data)] = true :=
  (C7_theorem.1 [("S3".data)]).mpr
    ⟨"S3".data, by decide, Or.inr ⟨3, by decide, by decide, rfl⟩⟩

/-! ## Claim C10 -/

/-- Claim C10 (confirmed): when the input does not take the JSON-array fast
path and every raw line is discarded by the noise filters (empty after
trimming and lower-casing, or containing "no harmful content", "analysis:" or
"categories:"), the filtered line list is empty, the `every`-line-contains-
"safe" check is vacuously true on it, and the parser returns the single
category `["safe"]`, whose derived `flagged` is false. -/
theorem C10_theorem (s : List Char)
    (hjson : jsonArrayAttempt (cleanOllama s) = none)
    (hnoise : ∀ l ∈ splitNl (cleanOllama s),
      lowerStr (trimJs l) = [] ∨ containsSub (lowerStr (trimJs l)) noHarmTok = true ∨
        containsSub (lowerStr (trimJs l)) analysisTok = true ∨
        containsSub (lowerStr (trimJs l)) categoriesTok = true) :
    parseOllamaResponse s = Json.arr [Json.str safeTok] ∧
      moderationOutcome s = some ([safeTok], false) := by
  have hlines : ollamaLines (cleanOllama s) = [] := by
    rw [ollamaLines, List.filter_eq_nil_iff]
    intro l hl
    rcases List.mem_map.1 hl with ⟨raw, hraw, rfl⟩
    rcases hnoise raw hraw with h | h | h | h <;> simp [h]
  have hres : parseOllamaResponse s = Json.arr [Json.str safeTok] := by
    rw [parseOllamaResponse, hjson, ollamaLineFallback, hlines]
    rfl
  refine ⟨hres, ?_⟩
  rw [moderationOutcome, hres]
  rfl

/-! ## Lemmas towards claim C9: the render/parse round trip

`JSON.stringify` of an array of strings parses back to exactly that array, and
normalisation is idempotent, so re-running the whole pipeline on its own
output is the identity. -/

theorem toNat_ofNat_valid (n : Nat) (h : n.isValidChar) : (Char.ofNat n).toNat = n := by
  rw [Char.ofNat, dif_pos h]
  rfl

theorem codePointChar_toNat (c : Char) : codePointChar c.toNat = c := by
  rw [codePointChar, if_pos]
  · exact Char.ofNat_toNat c
  · exact c.valid

theorem highSurrogate_toNat (c : Char) : highSurrogate c.toNat = false := by
  rcases c.valid with h | ⟨h1, _⟩
  · have hn : c.toNat < 0xd800 := h
    simp only [highSurrogate, Bool.and_eq_false_imp, decide_eq_true_eq, decide_eq_false_iff_not]
    omega
  · have hn : 0xdfff < c.toNat := h1
    simp only [highSurrogate, Bool.and_eq_false_imp, decide_eq_true_eq, decide_eq_false_iff_not]
    omega

theorem lowSurrogate_toNat (c : Char) : lowSurrogate c.toNat = false := by
  rcases c.valid with h | ⟨h1, _⟩
  · have hn : c.toNat < 0xd800 := h
    simp only [lowSurrogate, Bool.and_eq_false_imp, decide_eq_true_eq, decide_eq_false_iff_not]
    omega
  · have hn : 0xdfff < c.toNat := h1
    simp only [lowSurrogate, Bool.and_eq_false_imp, decide_eq_true_eq, decide_eq_false_iff_not]
    omega

theorem unitsToChars_map_toNat (s : List Char) :
    unitsToChars (s.map Char.toNat) = s := by
  rw [unitsToChars]
  induction s with
  | nil => rfl
  | cons c s ih =>
    rw [List.map_cons, unitsToCharsAux, if_neg (by simp [highSurrogate_toNat]),
      codePointChar_toNat, ih]

theorem hexVal_hexDigitChar : ∀ d : Nat, d < 16 → hexVal (hexDigitChar d) = some d := by
  decide

theorem hexDigitChar_ne_nl (d : Nat) : hexDigitChar d ≠ '\n' := by
  by_cases h : d < 16
  · intro he
    have h2 := hexVal_hexDigitChar d h
    rw [he] at h2
    exact Option.noConfusion h2
  · have h0 : hexDigitChar d = '0' := by
      rw [hexDigitChar, List.getD_eq_default]
      simp only [List.length]
      omega
    rw [h0]
    decide

theorem nl_not_mem_escChar (c : Char) : ('\n' : Char) ∉ escChar c := by
  rw [escChar]
  split
  · decide
  · split
    · decide
    · split
      · decide
      · split
        · decide
        · split
          · decide
          · split
            · decide
            · split
              · decide
              · split
                next h1 h2 h3 h4 h5 h6 h7 h8 =>
                  intro hmem
                  simp only [List.mem_cons, List.not_mem_nil, or_false] at hmem
                  rcases hmem with hm | hm | hm | hm | hm | hm
                  · exact absurd hm (by decide)
                  · exact absurd hm (by decide)
                  · exact absurd hm (by decide)
                  · exact absurd hm (by decide)
                  · exact hexDigitChar_ne_nl _ hm.symm
                  · exact hexDigitChar_ne_nl _ hm.symm
                next h1 h2 h3 h4 h5 h6 h7 h8 =>
                  intro hmem
                  rcases List.mem_singleton.1 hmem with rfl
                  exact h8 (by decide)

theorem nl_not_mem_escStr (s : List Char) : ('\n' : Char) ∉ escStr s := by
  induction s with
  | nil => simp [escStr]
  | cons c s ih =>
    rw [escStr]
    intro hmem
    rcases List.mem_append.1 hmem with h | h
    · exact nl_not_mem_escChar c h
    · exact ih h

theorem nl_not_mem_renderItems (cs : List (List Char)) :
    ('\n' : Char) ∉ renderItems cs := by
  induction cs with
  | nil => simp [renderItems]
  | cons s t ih =>
    cases t with
    | nil =>
      rw [renderItems]
      intro hmem
      rcases List.mem_cons.1 hmem with h | h
      · exact absurd h (by decide)
      · rcases List.mem_append.1 h with h2 | h2
        · exact nl_not_mem_escStr s h2
        · exact absurd (List.mem_singleton.1 h2) (by decide)
    | cons s2 t2 =>
      show ('\n' : Char) ∉ '"' :: escStr s ++ '"' :: ',' :: renderItems (s2 :: t2)
      intro hmem
      rcases List.mem_cons.1 hmem with h | h
      · exact absurd h (by decide)
      · rcases List.mem_append.1 h with h2 | h2
        · exact nl_not_mem_escStr s h2
        · rcases List.mem_cons.1 h2 with h3 | h3
          · exact absurd h3 (by decide)
          · rcases List.mem_cons.1 h3 with h4 | h4
            · exact absurd h4 (by decide)
            · exact ih h4

theorem nl_not_mem_render (cs : List (List Char)) :
    ('\n' : Char) ∉ renderStringArray cs := by
  rw [renderStringArray]
  intro hmem
  rcases List.mem_cons.1 hmem with h | h
  · exact absurd h (by decide)
  · rcases List.mem_append.1 h with h2 | h2
    · exact nl_not_mem_renderItems cs h2
    · exact absurd (List.mem_singleton.1 h2) (by decide)

/-- Lexing one escaped character off the front of a string body. -/
theorem parseStrUnits_escChar (c : Char) (rest : List Char) (fuel : Nat) :
    parseStrUnits (fuel + 1) (escChar c ++ rest)
      = (parseStrUnits fuel rest).map (fun p => (c.toNat :: p.1, p.2)) := by
  by_cases h1 : c = '"'
  · subst h1; rfl
  by_cases h2 : c = '\\'
  · subst h2; rfl
  by_cases h3 : c = '\x08'
  · subst h3; rfl
  by_cases h4 : c = '\t'
  · subst h4; rfl
  by_cases h5 : c = '\n'
  · subst h5; rfl
  by_cases h6 : c = '\x0c'
  · subst h6; rfl
  by_cases h7 : c = '\r'
  · subst h7; rfl
  by_cases h8 : c.toNat < 0x20
  · have e : escChar c
        = ['\\', 'u', '0', '0', hexDigitChar (c.toNat / 16), hexDigitChar (c.toNat % 16)] := by
      rw [escChar, if_neg h1, if_neg h2, if_neg h3, if_neg h4, if_neg h5, if_neg h6, if_neg h7,
        if_pos h8]
    rw [e]
    show (match hex4 '0' '0' (hexDigitChar (c.toNat / 16)) (hexDigitChar (c.toNat % 16)) with
      | none => none
      | some n => (parseStrUnits fuel rest).map
          (fun (p : List Nat × List Char) => (n :: p.1, p.2))) = _
    rw [hex4, hexVal_hexDigitChar _ (by omega), hexVal_hexDigitChar _ (by omega)]
    show (parseStrUnits fuel rest).map
        (fun p => ((((0 * 16 + 0) * 16 + c.toNat / 16) * 16 + c.toNat % 16) :: p.1, p.2)) = _
    have harith : ((0 * 16 + 0) * 16 + c.toNat / 16) * 16 + c.toNat % 16 = c.toNat := by omega
    rw [harith]
  · have e : escChar c = [c] := by
      rw [escChar, if_neg h1, if_neg h2, if_neg h3, if_neg h4, if_neg h5, if_neg h6, if_neg h7,
        if_neg h8]
    rw [e]
    show parseStrUnits (fuel + 1) (c :: rest) = _
    rw [parseStrUnits, if_neg h1, if_neg h2, if_neg h8]

/-- Lexing a whole escaped string body ending in its closing quote. -/
theorem parseStrUnits_escStr (s rest : List Char) : ∀ fuel : Nat, s.length + 1 ≤ fuel →
    parseStrUnits fuel (escStr s ++ '"' :: rest) = some (s.map Char.toNat, rest) := by
  induction s with
  | nil =>
    intro fuel hfuel
    obtain ⟨f, rfl⟩ : ∃ f, fuel = f + 1 := ⟨fuel - 1, by omega⟩
    rfl
  | cons c s ih =>
    intro fuel hfuel
    obtain ⟨f, rfl⟩ : ∃ f, fuel = f + 1 := ⟨fuel - 1, by omega⟩
    rw [escStr, List.append_assoc, parseStrUnits_escChar,
      ih f (by simp at hfuel; omega)]
    rfl

theorem escStr_length_ge (s : List Char) : s.length ≤ (escStr s).length := by
  induction s with
  | nil => simp [escStr]
  | cons c s ih =>
    rw [escStr, List.length_append, List.length_cons]
    have hc : 1 ≤ (escChar c).length := by
      rw [escChar]
      split
      · simp
      · split
        · simp
        · split
          · simp
          · split
            · simp
            · split
              · simp
              · split
                · simp
                · split
                  · simp
                  · split <;> simp
    omega

/-- The string-body decode of a `JSON.stringify`-escaped string is the
original string. -/
theorem parseStrBody_escStr (s rest : List Char) :
    parseStrBody (escStr s ++ '"' :: rest) = some (s, rest) := by
  rw [parseStrBody, parseStrUnits_escStr s rest _ (by
    have := escStr_length_ge s
    simp only [List.length_append, List.length_cons]
    omega)]
  show some (unitsToChars (s.map Char.toNat), rest) = some (s, rest)
  rw [unitsToChars_map_toNat]

theorem renderItems_length_ge (cs : List (List Char)) (h : cs ≠ []) :
    cs.length + 1 ≤ (renderItems cs).length := by
  induction cs with
  | nil => exact absurd rfl h
  | cons s t ih =>
    cases t with
    | nil => simp [renderItems]
    | cons s2 t2 =>
      have h2 := ih (by simp)
      show (s :: s2 :: t2).length + 1 ≤ ('"' :: escStr s ++ '"' :: ',' :: renderItems (s2 :: t2)).length
      simp only [List.length_cons, List.length_append] at *
      omega

/-- Parsing the rendered elements of a non-empty string array consumes them
and the closing bracket. -/
theorem parseItems_render (cs : List (List Char)) : cs ≠ [] → ∀ (fuel : Nat) (rest : List Char),
    cs.length + 1 ≤ fuel →
    parseItems fuel (renderItems cs ++ ']' :: rest) = some (cs.map Json.str, rest) := by
  induction cs with
  | nil => intro h; exact absurd rfl h
  | cons s t ih =>
    intro _ fuel rest hfuel
    cases t with
    | nil =>
      obtain ⟨f2, rfl⟩ : ∃ f2, fuel = f2 + 1 + 1 := ⟨fuel - 2, by simp at hfuel; omega⟩
      have hre : renderItems [s] ++ ']' :: rest = '"' :: (escStr s ++ ('"' :: ']' :: rest)) := by
        show ('"' :: escStr s ++ ['"']) ++ ']' :: rest = _
        simp
      rw [hre, parseItems]
      have hval : parseVal (f2 + 1) ('"' :: (escStr s ++ ('"' :: ']' :: rest)))
          = some (Json.str s, ']' :: rest) := by
        show (parseStrBody (escStr s ++ ('"' :: ']' :: rest))).map (fun p => (Json.str p.1, p.2))
            = some (Json.str s, ']' :: rest)
        rw [parseStrBody_escStr]
        rfl
      rw [hval]
      rfl
    | cons s2 t2 =>
      obtain ⟨f2, rfl⟩ : ∃ f2, fuel = f2 + 1 + 1 := ⟨fuel - 2, by simp at hfuel; omega⟩
      have hre : renderItems (s :: s2 :: t2) ++ ']' :: rest
          = '"' :: (escStr s ++ ('"' :: ',' :: (renderItems (s2 :: t2) ++ ']' :: rest))) := by
        show ('"' :: escStr s ++ '"' :: ',' :: renderItems (s2 :: t2)) ++ ']' :: rest = _
        simp
      rw [hre, parseItems]
      have hval : parseVal (f2 + 1)
            ('"' :: (escStr s ++ ('"' :: ',' :: (renderItems (s2 :: t2) ++ ']' :: rest))))
          = some (Json.str s, ',' :: (renderItems (s2 :: t2) ++ ']' :: rest)) := by
        show (parseStrBody (escStr s ++ ('"' :: ',' :: (renderItems (s2 :: t2) ++ ']' :: rest)))).map
            (fun p => (Json.str p.1, p.2)) = _
        rw [parseStrBody_escStr]
        rfl
      rw [hval]
      show (parseItems (f2 + 1) (renderItems (s2 :: t2) ++ ']' :: rest)).map
          (fun p => (Json.str s :: p.1, p.2)) = _
      rw [ih (by simp) (f2 + 1) rest (by simp at hfuel ⊢; omega)]
      rfl

/-- `JSON.parse` of a rendered string array is exactly that array. -/
theorem jsonParse_render (cs : List (List Char)) :
    jsonParse (renderStringArray cs) = some (Json.arr (cs.map Json.str)) := by
  cases cs with
  | nil => rfl
  | cons s t =>
    have hpv : parseVal ((renderStringArray (s :: t)).length + 1) (renderStringArray (s :: t))
        = some (Json.arr ((s :: t).map Json.str), []) := by
      obtain ⟨tail, htail⟩ : ∃ tail, renderItems (s :: t) = '"' :: tail := by
        cases t <;> exact ⟨_, rfl⟩
      rw [renderStringArray]
      have hlen : ('[' :: renderItems (s :: t) ++ [']']).length
          = (renderItems (s :: t)).length + 2 := by
        simp
      rw [hlen, htail]
      show (parseItems (('"' :: tail).length + 2) (('"' :: tail) ++ [']'])).map
          (fun p => (Json.arr p.1, p.2)) = _
      have harg : (('"' : Char) :: tail) ++ [']'] = renderItems (s :: t) ++ ']' :: [] := by
        rw [htail]
      have hflen : (('"' : Char) :: tail).length = (renderItems (s :: t)).length := by
        rw [htail]
      rw [harg, hflen,
        parseItems_render (s :: t) (by simp) _ []
          (le_trans (by simp) (Nat.add_le_add_right (renderItems_length_ge _ (by simp)) 2))]
      try rfl
    rw [jsonParse, hpv]
    try rfl


theorem replaceFencesAux_no_nl (fuel : Nat) : ∀ l : List Char, ('\n' : Char) ∉ l →
    replaceFencesAux fuel l = l := by
  induction fuel with
  | zero => intro l _; rfl
  | succ fuel ih =>
    intro l hl
    cases l with
    | nil => rfl
    | cons c rest =>
      have h1 : ¬ fenceTag.isPrefixOf (c :: rest) = true := fun hpre =>
        hl ((List.isPrefixOf_iff_prefix.1 hpre).subset (by decide))
      have h2 : ¬ closeFence.isPrefixOf (c :: rest) = true := fun hpre =>
        hl ((List.isPrefixOf_iff_prefix.1 hpre).subset (by decide))
      rw [replaceFencesAux, if_neg h1, if_neg h2,
        ih rest (fun hm => hl (List.mem_cons_of_mem c hm))]

theorem replaceFences_no_nl (l : List Char) (h : ('\n' : Char) ∉ l) :
    replaceFences l = l :=
  replaceFencesAux_no_nl l.length l h

theorem head?_dropWhile_not (p : Char → Bool) : ∀ (l : List Char) (c : Char),
    (l.dropWhile p).head? = some c → p c = false := by
  intro l
  induction l with
  | nil => intro c h; exact absurd h (by simp)
  | cons a l ih =>
    intro c h
    rw [List.dropWhile_cons] at h
    by_cases ha : p a = true
    · rw [if_pos ha] at h
      exact ih c h
    · rw [if_neg ha] at h
      have : a = c := Option.some.inj h
      rw [← this]
      exact Bool.eq_false_iff.2 ha

theorem getLast?_append_right {α : Type} (l1 l2 : List α) (h : l2 ≠ []) :
    (l1 ++ l2).getLast? = l2.getLast? := by
  cases hl : l2.getLast? with
  | none => exact absurd (List.getLast?_eq_none_iff.1 hl) h
  | some a =>
    rw [List.getLast?_append_of_ne_nil l1 h, hl]

theorem trimJs_eq_self (l : List Char)
    (h1 : ∀ c, l.head? = some c → jsWs c = false)
    (h2 : ∀ c, l.getLast? = some c → jsWs c = false) :
    trimJs l = l := by
  have s1 : l.dropWhile jsWs = l := by
    cases l with
    | nil => rfl
    | cons a t =>
      rw [List.dropWhile_cons, if_neg]
      rw [h1 a rfl]
      exact Bool.false_ne_true
  rw [trimJs, s1]
  have s2 : l.reverse.dropWhile jsWs = l.reverse := by
    cases hr : l.reverse with
    | nil => rfl
    | cons a r =>
      rw [List.dropWhile_cons, if_neg]
      have hla : l.getLast? = some a := by
        rw [← List.head?_reverse, hr]
        rfl
      rw [h2 a hla]
      exact Bool.false_ne_true
  rw [s2, List.reverse_reverse]

theorem trimJs_head?_not_ws (l : List Char) (c : Char)
    (h : (trimJs l).head? = some c) : jsWs c = false := by
  rw [trimJs, List.head?_reverse] at h
  have hne : ((l.dropWhile jsWs).reverse.dropWhile jsWs) ≠ [] := by
    intro h0
    rw [h0] at h
    exact Option.noConfusion h
  obtain ⟨pre, hpre⟩ := List.dropWhile_suffix (l := (l.dropWhile jsWs).reverse) (p := jsWs)
  have hx : ((l.dropWhile jsWs).reverse).getLast? = some c := by
    rw [← hpre, getLast?_append_right pre _ hne, h]
  rw [List.getLast?_reverse] at hx
  exact head?_dropWhile_not jsWs l c hx

theorem trimJs_getLast?_not_ws (l : List Char) (c : Char)
    (h : (trimJs l).getLast? = some c) : jsWs c = false := by
  rw [trimJs, List.getLast?_reverse] at h
  exact head?_dropWhile_not jsWs _ c h

theorem render_getLast? (cs : List (List Char)) :
    (renderStringArray cs).getLast? = some ']' := by
  rw [renderStringArray, List.getLast?_concat]

theorem cleanOllama_render (cs : List (List Char)) :
    cleanOllama (renderStringArray cs) = renderStringArray cs := by
  rw [cleanOllama, replaceFences_no_nl _ (nl_not_mem_render cs)]
  apply trimJs_eq_self
  · intro c hc
    rw [renderStringArray] at hc
    have : '[' = c := Option.some.inj hc
    rw [← this]
    decide
  · intro c hc
    rw [render_getLast? cs] at hc
    have : ']' = c := Option.some.inj hc
    rw [← this]
    decide

theorem jsonArrayAttempt_render (cs : List (List Char)) :
    jsonArrayAttempt (renderStringArray cs) = some (Json.arr (cs.map Json.str)) := by
  have h1 : startsWithCh (renderStringArray cs) '[' = true := by
    rw [renderStringArray]
    rfl
  have h2 : endsWithCh (renderStringArray cs) ']' = true := by
    rw [endsWithCh, render_getLast? cs]
    rfl
  rw [jsonArrayAttempt, if_pos (by rw [h1, h2]; rfl), jsonParse_render]

theorem parseOllama_render (cs : List (List Char)) :
    parseOllamaResponse (renderStringArray cs) = Json.arr (cs.map Json.str) := by
  rw [parseOllamaResponse, cleanOllama_render, jsonArrayAttempt_render]

theorem formatCategories_arr (xs : List Json) :
    formatCategories (Json.arr xs)
      = xs.mapM (fun x =>
          match x with
          | .str s => some (normalizeCategory s)
          | _ => none) := rfl

theorem mapM_norm_str (l : List (List Char)) :
    (l.map Json.str).mapM (fun x =>
        match x with
        | Json.str s => some (normalizeCategory s)
        | _ => none)
      = some (l.map normalizeCategory) := by
  induction l with
  | nil => rfl
  | cons c l ih =>
    rw [List.map_cons, List.mapM_cons, ih]
    rfl

theorem formatCategories_norm (j : Json) (cs : List (List Char))
    (h : formatCategories j = some cs) :
    ∀ c ∈ cs, ∃ s0, c = normalizeCategory s0 := by
  cases j with
  | arr xs =>
    rw [formatCategories_arr] at h
    induction xs generalizing cs with
    | nil =>
      have : cs = [] := (Option.some.inj h).symm
      rw [this]
      intro c hc
      exact absurd hc (List.not_mem_nil c)
    | cons x xs ih =>
      rw [List.mapM_cons] at h
      cases x with
      | str s =>
        cases hm : xs.mapM (fun x =>
            match x with
            | Json.str s => some (normalizeCategory s)
            | _ => none) with
        | none =>
          rw [hm] at h
          exact absurd h (by simp)
        | some bs =>
          rw [hm] at h
          have hcs : normalizeCategory s :: bs = cs := Option.some.inj h
          intro c hc
          rw [← hcs] at hc
          rcases List.mem_cons.1 hc with hc | hc
          · exact ⟨s, hc⟩
          · exact ih bs hm c hc
      | null => exact absurd h (by simp)
      | bool b => exact absurd h (by simp)
      | num m e => exact absurd h (by simp)
      | arr ys => exact absurd h (by simp)
      | obj ms => exact absurd h (by simp)
  | null => exact absurd h (by simp [formatCategories])
  | bool b => exact absurd h (by simp [formatCategories])
  | num m e => exact absurd h (by simp [formatCategories])
  | str s => exact absurd h (by simp [formatCategories])
  | obj ms => exact absurd h (by simp [formatCategories])

theorem toLower_eval (c : Char) :
    c.toLower = if c.toNat ≥ 65 ∧ c.toNat ≤ 90 then Char.ofNat (c.toNat + 32) else c := rfl

theorem toLower_toLower (c : Char) : c.toLower.toLower = c.toLower := by
  by_cases h : c.toNat ≥ 65 ∧ c.toNat ≤ 90
  · have h1 : c.toLower = Char.ofNat (c.toNat + 32) := by
      rw [toLower_eval, if_pos h]
    have hv : (c.toNat + 32).isValidChar := Or.inl (by omega)
    have h2 : (Char.ofNat (c.toNat + 32)).toNat = c.toNat + 32 := toNat_ofNat_valid _ hv
    rw [h1, toLower_eval, h2, if_neg (by omega)]
  · have h1 : c.toLower = c := by
      rw [toLower_eval, if_neg h]
    rw [h1, h1]

theorem isDigit_toNat (c : Char) (h : c.isDigit = true) :
    48 ≤ c.toNat ∧ c.toNat ≤ 57 := by
  simp only [Char.isDigit, Bool.and_eq_true, decide_eq_true_eq] at h
  exact ⟨h.1, h.2⟩

theorem toLower_of_digit (c : Char) (h : c.isDigit = true) : c.toLower = c := by
  have hb := isDigit_toNat c h
  rw [toLower_eval, if_neg (by omega)]

theorem jsWs_of_digit_false (c : Char) (h : c.isDigit = true) : jsWs c = false := by
  have hb := isDigit_toNat c h
  simp only [jsWs, Bool.or_eq_false_iff, decide_eq_false_iff_not]
  omega

theorem mem_trimJs_subset (l : List Char) (x : Char) (h : x ∈ trimJs l) : x ∈ l := by
  rw [trimJs] at h
  have h1 := List.mem_reverse.1 h
  have h2 := (List.dropWhile_suffix (p := jsWs)).subset h1
  have h3 := List.mem_reverse.1 h2
  exact (List.dropWhile_suffix (p := jsWs)).subset h3

theorem lowerStr_fix_of (l : List Char) (h : ∀ x ∈ l, Char.toLower x = x) :
    lowerStr l = l := by
  rw [lowerStr, List.map_congr_left h, List.map_id']

/-- Case analysis of `normalizeCategory`: either it returns the trimmed
lower-cased text and no in-range `s<digits>` shape was matched, or it matched
and returned capital-S followed by the original digits. -/
theorem norm_cases (x : List Char) :
    (normalizeCategory x = trimJs (lowerStr x) ∧
      ∀ d ds, trimJs (lowerStr x) = 's' :: d :: ds →
        ¬((d :: ds).all Char.isDigit = true ∧ 1 ≤ digitsToNat (d :: ds) ∧
          digitsToNat (d :: ds) ≤ 13)) ∨
    (∃ d ds, trimJs (lowerStr x) = 's' :: d :: ds ∧
      (d :: ds).all Char.isDigit = true ∧ 1 ≤ digitsToNat (d :: ds) ∧
      digitsToNat (d :: ds) ≤ 13 ∧
      normalizeCategory x = 'S' :: d :: ds) := by
  rw [normalizeCategory]
  split
  next d ds heq =>
    by_cases hcond : (d :: ds).all Char.isDigit = true ∧ 1 ≤ digitsToNat (d :: ds) ∧
        digitsToNat (d :: ds) ≤ 13
    · right
      exact ⟨d, ds, heq, hcond.1, hcond.2.1, hcond.2.2, by rw [heq, if_pos hcond]⟩
    · left
      constructor
      · rw [heq, if_neg hcond]
      · intro d' ds' heq'
        rw [heq] at heq'
        injection heq' with _ h3
        injection h3 with h4 h5
        rw [← h4, ← h5]
        exact hcond
  next hne =>
    left
    exact ⟨rfl, fun d ds heq => absurd heq (hne d ds)⟩

theorem normalizeCategory_idem (x : List Char) :
    normalizeCategory (normalizeCategory x) = normalizeCategory x := by
  have tlow : ∀ z : List Char, lowerStr (trimJs (lowerStr z)) = trimJs (lowerStr z) := by
    intro z
    apply lowerStr_fix_of
    intro w hw
    rcases List.mem_map.1 (mem_trimJs_subset _ w hw) with ⟨y, _, hy⟩
    rw [← hy]
    exact toLower_toLower y
  have ttrim : ∀ z : List Char, trimJs (trimJs z) = trimJs z := by
    intro z
    exact trimJs_eq_self _ (trimJs_head?_not_ws z) (trimJs_getLast?_not_ws z)
  rcases norm_cases x with ⟨h1, h2⟩ | ⟨d, ds, heq, hdig, hlo, hhi, hres⟩
  · rw [h1]
    rcases norm_cases (trimJs (lowerStr x)) with ⟨g1, _⟩ | ⟨d, ds, geq, gdig, glo, ghi, _⟩
    · rw [g1, tlow, ttrim]
    · rw [tlow, ttrim] at geq
      exact absurd ⟨gdig, glo, ghi⟩ (h2 d ds geq)
  · rw [hres]
    have hdigits : ∀ c ∈ d :: ds, c.isDigit = true :=
      fun c hc => List.all_eq_true.1 hdig c hc
    have hlow : lowerStr ('S' :: d :: ds) = 's' :: d :: ds := by
      rw [lowerStr, List.map_cons]
      have hS : Char.toLower 'S' = 's' := rfl
      rw [hS, List.map_congr_left (fun c hc => toLower_of_digit c (hdigits c hc)),
        List.map_id']
    have htrim : trimJs ('s' :: d :: ds) = 's' :: d :: ds := by
      apply trimJs_eq_self
      · intro c hc
        have : 's' = c := Option.some.inj hc
        rw [← this]
        decide
      · intro c hc
        have hmem : c ∈ 's' :: d :: ds := List.mem_of_mem_getLast? hc
        rcases List.mem_cons.1 hmem with hc' | hc'
        · rw [hc']
          decide
        · exact jsWs_of_digit_false c (hdigits c hc')
    rcases norm_cases ('S' :: d :: ds) with ⟨_, g2⟩ | ⟨d', ds', geq, _, _, _, gres'⟩
    · exact absurd ⟨hdig, hlo, hhi⟩ (g2 d ds (by rw [hlow, htrim]))
    · rw [hlow, htrim] at geq
      injection geq with _ h3
      injection h3 with h4 h5
      rw [gres', ← h4, ← h5]

/-- Claim C9: the moderation pipeline is idempotent on its own output — if a
raw model response yields the persisted category list `cs` with flag `fl`,
then feeding the pipeline that list rendered back as a JSON array string
(`JSON.stringify`) yields exactly the same list and flag.  The rendered text
takes the JSON-array fast path, parses back to the same strings, and each
category is a fixed point of the normalisation. -/
theorem C9_theorem (s : List Char) (cs : List (List Char)) (fl : Bool)
    (h : moderationOutcome s = some (cs, fl)) :
    moderationOutcome (renderStringArray cs) = some (cs, fl) := by
  rw [moderationOutcome] at h
  cases hf : formatCategories (parseOllamaResponse s) with
  | none =>
    rw [hf] at h
    exact absurd h (by simp)
  | some cs0 =>
    rw [hf] at h
    obtain ⟨hcs, hfl⟩ := Prod.mk.inj (Option.some.inj h)
    rw [← hcs, ← hfl]
    have hfix : ∀ c ∈ cs0, normalizeCategory c = c := by
      intro c hc
      rcases formatCategories_norm _ _ hf c hc with ⟨s0, hs0⟩
      rw [hs0]
      exact normalizeCategory_idem s0
    have hmap : cs0.map normalizeCategory = cs0 := by
      rw [List.map_congr_left hfix, List.map_id']
    rw [moderationOutcome, parseOllama_render, formatCategories_arr, mapM_norm_str, hmap]
    rfl

/-- Witness for `C9_theorem`: the spec's own example — the output set
`["S1","safe"]` (flagged) re-enters the pipeline as the text
`["S1","safe"]` and comes back unchanged. -/
theorem C9_witness :
    moderationOutcome ("[\"S1\",\"safe\"]".data) = some (["S1".data, "safe".data], true) ∧
      moderationOutcome (renderStringArray ["S1".data, "safe".data])
        = some (["S1".data, "safe".data], true) :=
  ⟨rfl, C9_theorem ("[\"S1\",\"safe\"]".data) ["S1".data, "safe".data] true rfl⟩

/-- Witness for `C10_theorem`: the spec's own example `Analysis: no harmful
content detected.` — both of its noise phrases match — yields `["safe"]`. -/
theorem C10_witness :
    jsonArrayAttempt (cleanOllama ("Analysis: no harmful content detected.".data)) = none ∧
      parseOllamaResponse ("Analysis: no harmful content detected.".data)
        = Json.arr [Json.str safeTok] ∧
      moderationOutcome ("Analysis: no harmful content detected.".data)
        = some ([safeTok], false) := by
  have h := C10_theorem ("Analysis: no harmful content detected.".data) rfl (by decide)
  exact ⟨rfl, h.1, h.2⟩

end StingChat
